import Mathlib

/-
Verification of the ETL script in
Netezza_to_AWS_Migration_for_Incremental_Jobs/etl_script.py.

Modelling conventions:
- A Python dict is an insertion-ordered association list with unique keys;
  `dictInsert` overwrites the value in place when the key is present and
  appends otherwise, exactly as Python dict assignment does.
- A CSV data value may be Python `None` (csv.DictReader fills fields missing
  from a short row with its default restval, which is None), so CSV values
  are `Option String`; `none` stands for Python None.
- `datetime.datetime.now().isoformat()` is abstracted as a function
  `now : Nat -> String` giving the timestamp string observed at the i-th
  iteration of the loop in `transform_data`.
- `print` side effects are recorded as `Event` values; the payload of each
  event is exactly what the corresponding print statement displays.
- Python exceptions (KeyError) are modelled with `Except String`.
- csv.DictReader's restkey behaviour for data rows longer than the header
  is not modelled (no claim touches it), and blank CSV lines, which
  DictReader skips, are assumed absent from the row list.
-/

/-- A Python string-or-None value; `none` models Python `None`. -/
abbrev PyVal := Option String

/-- How Python renders a value inside an f-string. -/
def pyStr : PyVal → String
  | some s => s
  | none => "None"

/-- Python dict assignment `d[k] = v`: overwrite in place when the key is
present (keeping its position), append otherwise. -/
def dictInsert {κ α : Type} [DecidableEq κ] (d : List (κ × α)) (k : κ) (v : α) :
    List (κ × α) :=
  if d.any (fun p => decide (p.1 = k)) then
    d.map (fun p => if p.1 = k then (p.1, v) else p)
  else
    d ++ [(k, v)]

/-- Python dict read `d.get(k)`: the value stored at `k`, if any. -/
def dictGet? {κ α : Type} [DecidableEq κ] (d : List (κ × α)) (k : κ) : Option α :=
  match d.find? (fun p => decide (p.1 = k)) with
  | some p => some p.2
  | none => none

/-- A data row produced by the extractor: a dict from column (a Python value,
possibly None) to a string value. -/
abbrev Row := List (PyVal × String)

/-- A parsed CSV row as csv.DictReader yields it: a dict from header field
name to the field value, `none` when the data row was too short. -/
abbrev CsvRow := List (String × PyVal)

/-- The grouping key used by `read_metadata`:
`(row['source_table'], row['target_table'])`. -/
abbrev MetaKey := PyVal × PyVal

/-- The metadata dict built by `read_metadata`, keyed by `MetaKey`. -/
abbrev Metadata := List (MetaKey × List CsvRow)

/-- The observable print output of the pipeline stages. -/
inductive Event where
  | extract (table : PyVal) (columns : List PyVal)
  | transform
  | load (table : PyVal) (data : List Row)
deriving DecidableEq

/-- The placeholder value the stub extractor gives a column:
`f"sample_X_value"` where X is the f-string rendering of the column. -/
def sampleValue (col : PyVal) : String :=
  "sample_" ++ pyStr col ++ "_value"

/-- A dict built by inserting the given key-value pairs in order, starting
from the empty dict (later pairs with the same key overwrite). -/
def dictOfPairs {κ α : Type} [DecidableEq κ] (ps : List (κ × α)) : List (κ × α) :=
  ps.foldl (fun d p => dictInsert d p.1 p.2) []

/-- The dict comprehension in `extract_data`: one dict with every requested
column mapped to its placeholder value (later duplicates overwrite). -/
def mkRow (columns : List PyVal) : Row :=
  dictOfPairs (columns.map (fun col => (col, sampleValue col)))

/-- `extract_data(table, columns)`: three copies of the comprehension dict.
The table argument only feeds the print statement. -/
def extract_data (_table : PyVal) (columns : List PyVal) : List Row :=
  List.replicate 3 (mkRow columns)

/-- The loop body of `transform_data`, indexed so that the i-th row receives
the timestamp `now i`. -/
def transform_go (now : Nat → String) : Nat → List Row → List Row
  | _, [] => []
  | i, row :: rest =>
      dictInsert row (some "processed_at") (now i) :: transform_go now (i + 1) rest

/-- `transform_data(data)`: sets `row['processed_at']` on every row to the
timestamp observed at that iteration, and returns the rows. -/
def transform_data (now : Nat → String) (data : List Row) : List Row :=
  transform_go now 0 data

/-- `load_data(table, data)`: only prints; recorded as a load event. -/
def load_data (table : PyVal) (data : List Row) : Event :=
  Event.load table data

/-- The zip of header field names with a data row as csv.DictReader builds
it: missing values become `none` (restval). -/
def zipFields : List String → List String → List (String × PyVal)
  | [], _ => []
  | f :: fs, [] => (f, none) :: zipFields fs []
  | f :: fs, v :: vs => (f, some v) :: zipFields fs vs

/-- One row as csv.DictReader yields it: the zipped pairs inserted into a
dict in header order. -/
def dictReaderRow (fieldnames : List String) (vals : List String) : CsvRow :=
  dictOfPairs (zipFields fieldnames vals)

/-- The value currently grouped under a key, the empty list when the key is
absent (the `if key not in metadata: metadata[key] = []` initialisation). -/
def groupOf (m : Metadata) (k : MetaKey) : List CsvRow :=
  (dictGet? m k).getD []

/-- The loop body of `read_metadata`: append the row to its key's group,
creating the group when absent. -/
def metaAppend (m : Metadata) (k : MetaKey) (row : CsvRow) : Metadata :=
  dictInsert m k (groupOf m k ++ [row])

/-- Python `row[k]` on a CSV row: KeyError when the header lacks the field. -/
def pyGet (row : CsvRow) (k : String) : Except String PyVal :=
  match dictGet? row k with
  | some v => Except.ok v
  | none => Except.error ("KeyError: " ++ k)

/-- The loop of `read_metadata` over the data rows, carrying the metadata
dict built so far. -/
def read_metadata_go (fieldnames : List String) (m : Metadata) :
    List (List String) → Except String Metadata
  | [] => Except.ok m
  | vals :: rest =>
      let row := dictReaderRow fieldnames vals
      match pyGet row "source_table" with
      | Except.error e => Except.error e
      | Except.ok st =>
        match pyGet row "target_table" with
        | Except.error e => Except.error e
        | Except.ok tt =>
            read_metadata_go fieldnames (metaAppend m (st, tt) row) rest

/-- `read_metadata(metadata_file)`: the metadata file is given as its header
field names and its data rows. -/
def read_metadata (fieldnames : List String) (rows : List (List String)) :
    Except String Metadata :=
  read_metadata_go fieldnames [] rows

/-- The list comprehension `[col['column_name'] for col in columns_info]`
in `main`; KeyError when an entry lacks the field. -/
def derive_columns : List CsvRow → Except String (List PyVal)
  | [] => Except.ok []
  | col :: rest =>
      match pyGet col "column_name" with
      | Except.error e => Except.error e
      | Except.ok v =>
          match derive_columns rest with
          | Except.error e => Except.error e
          | Except.ok vs => Except.ok (v :: vs)

/-- One iteration of the `main` loop for a single (source_table,
target_table) key: derive the columns, extract, transform, load. -/
def run_mapping (now : Nat → String) (source_table target_table : PyVal)
    (columns_info : List CsvRow) : Except String (List Event) :=
  match derive_columns columns_info with
  | Except.error e => Except.error e
  | Except.ok columns =>
      let data := extract_data source_table columns
      let data2 := transform_data now data
      Except.ok [Event.extract source_table columns, Event.transform,
                 load_data target_table data2]

/-- The `main` loop over the metadata items, in insertion order; the k-th
mapping uses the clock `now k`. -/
def main_loop (now : Nat → Nat → String) : Nat → Metadata → Except String (List Event)
  | _, [] => Except.ok []
  | k, (key, columns_info) :: rest =>
      match run_mapping (now k) key.1 key.2 columns_info with
      | Except.error e => Except.error e
      | Except.ok evs =>
          match main_loop now (k + 1) rest with
          | Except.error e => Except.error e
          | Except.ok more => Except.ok (evs ++ more)

/-- `main()`: read the metadata once, then run every mapping in order.
The result is the sequence of observable pipeline events. (Named
`etl_main` because Lean reserves the name `main` for executables.) -/
def etl_main (now : Nat → Nat → String) (fieldnames : List String)
    (rows : List (List String)) : Except String (List Event) :=
  match read_metadata fieldnames rows with
  | Except.error e => Except.error e
  | Except.ok metadata => main_loop now 0 metadata

/-- The grouping key of a parsed CSV row, when both key fields are present. -/
def rowKey (r : CsvRow) : Option MetaKey :=
  match dictGet? r "source_table", dictGet? r "target_table" with
  | some st, some tt => some (st, tt)
  | _, _ => none

/-- Spec-side formulation of grouping: the parsed rows of the file whose key
is `k`, in file order. -/
def keyEntries (fieldnames : List String) (rows : List (List String))
    (k : MetaKey) : List CsvRow :=
  (rows.map (dictReaderRow fieldnames)).filter (fun r => decide (rowKey r = some k))

/-- Spec-side formulation of the derived column list: the ordered sequence of
`column_name` values of the entries. -/
def columnNamesOf (entries : List CsvRow) : List PyVal :=
  entries.map (fun r => (dictGet? r "column_name").getD none)

/-- A row with its `processed_at` field (the timestamp) removed: the
timestamp-free fields. -/
def stripTs (r : Row) : Row :=
  r.filter (fun p => !decide (p.1 = some "processed_at"))

/-- Checks that an event trace is a sequence of extract-transform-load
blocks, in that order. -/
def isETLTrace : List Event → Bool
  | [] => true
  | Event.extract _ _ :: Event.transform :: Event.load _ _ :: rest => isETLTrace rest
  | _ => false

/-- The header of the metadata file described by the repository. -/
def stdFns : List String := ["source_table", "target_table", "column_name"]

/-- Unfolding of `dictGet?` through `Option.map`. -/
theorem dictGet?_eq {κ α : Type} [DecidableEq κ] (d : List (κ × α)) (k : κ) :
    dictGet? d k = (d.find? (fun p => decide (p.1 = k))).map Prod.snd := by
  unfold dictGet?
  cases d.find? (fun p => decide (p.1 = k)) <;> rfl

/-- The overwrite test of `dictInsert` is key membership. -/
theorem any_key_iff {κ α : Type} [DecidableEq κ] (d : List (κ × α)) (k : κ) :
    d.any (fun p => decide (p.1 = k)) = true ↔ k ∈ d.map Prod.fst := by
  simp [List.any_eq_true, List.mem_map]

/-- Reading back the key just written. -/
theorem dictGet?_dictInsert_self {κ α : Type} [DecidableEq κ]
    (d : List (κ × α)) (k : κ) (v : α) :
    dictGet? (dictInsert d k v) k = some v := by
  rw [dictGet?_eq]
  unfold dictInsert
  by_cases h : d.any (fun p => decide (p.1 = k)) = true
  · rw [if_pos h]
    rw [List.find?_map]
    have h2 : (d.find? (fun p => decide (p.1 = k))).isSome = true := by
      rw [List.find?_isSome]; exact List.any_eq_true.mp h
    obtain ⟨p₀, hp₀⟩ := Option.isSome_iff_exists.mp h2
    have hk : p₀.1 = k := by simpa using List.find?_some hp₀
    have hcomp : ((fun p : κ × α => decide (p.1 = k)) ∘
        (fun p : κ × α => if p.1 = k then (p.1, v) else p))
        = (fun p : κ × α => decide (p.1 = k)) := by
      funext p; by_cases hp : p.1 = k <;> simp [hp]
    rw [hcomp, hp₀]
    simp [hk]
  · rw [if_neg h]
    rw [List.find?_append]
    have hnone : d.find? (fun p => decide (p.1 = k)) = none := by
      rw [List.find?_eq_none]
      intro x hx hpx
      exact h (List.any_eq_true.mpr ⟨x, hx, hpx⟩)
    rw [hnone]
    simp

/-- Writing one key leaves every other key unchanged. -/
theorem dictGet?_dictInsert_ne {κ α : Type} [DecidableEq κ]
    (d : List (κ × α)) (k v) (c : κ) (hne : c ≠ k) :
    dictGet? (dictInsert d k v) c = dictGet? d c := by
  rw [dictGet?_eq, dictGet?_eq]
  unfold dictInsert
  by_cases h : d.any (fun p => decide (p.1 = k)) = true
  · rw [if_pos h]
    rw [List.find?_map]
    have hcomp : ((fun p : κ × α => decide (p.1 = c)) ∘
        (fun p : κ × α => if p.1 = k then (p.1, v) else p))
        = (fun p : κ × α => decide (p.1 = c)) := by
      funext p; by_cases hp : p.1 = k <;> simp [hp]
    rw [hcomp]
    cases hf : d.find? (fun p => decide (p.1 = c)) with
    | none => rfl
    | some p₀ =>
        have hc : p₀.1 = c := by simpa using List.find?_some hf
        have : p₀.1 ≠ k := by rw [hc]; exact hne
        simp [this]
  · rw [if_neg h]
    rw [List.find?_append]
    have hlast : List.find? (fun p : κ × α => decide (p.1 = c)) [(k, v)] = none := by
      simp [List.find?, Ne.symm hne]
    rw [hlast]
    cases d.find? (fun p => decide (p.1 = c)) <;> rfl

/-- A dict read succeeds exactly on the stored keys. -/
theorem dictGet?_isSome_iff {κ α : Type} [DecidableEq κ] (d : List (κ × α)) (k : κ) :
    (dictGet? d k).isSome = true ↔ k ∈ d.map Prod.fst := by
  rw [dictGet?_eq]
  cases hf : d.find? (fun p => decide (p.1 = k)) with
  | none =>
      rw [List.find?_eq_none] at hf
      constructor
      · intro h; exact absurd h (by simp)
      · intro h
        obtain ⟨p, hp, hk⟩ := List.mem_map.mp h
        exact absurd (by simpa using hk) (by simpa using hf p hp)
  | some p₀ =>
      have hk : p₀.1 = k := by simpa using List.find?_some hf
      have hmem : p₀ ∈ d := List.mem_of_find?_eq_some hf
      constructor
      · intro hh; exact List.mem_map.mpr ⟨p₀, hmem, hk⟩
      · intro hh; simp

/-- The key list after an insert: unchanged on overwrite, extended by the new
key otherwise. -/
theorem keys_dictInsert {κ α : Type} [DecidableEq κ] (d : List (κ × α)) (k : κ) (v : α) :
    (dictInsert d k v).map Prod.fst =
      if k ∈ d.map Prod.fst then d.map Prod.fst else d.map Prod.fst ++ [k] := by
  unfold dictInsert
  by_cases h : k ∈ d.map Prod.fst
  · rw [if_pos ((any_key_iff d k).mpr h), if_pos h, List.map_map]
    apply List.map_congr_left
    intro p _
    by_cases hp : p.1 = k <;> simp [hp]
  · rw [if_neg (fun hc => h ((any_key_iff d k).mp hc)), if_neg h, List.map_append]
    rfl

/-- Inserting preserves distinctness of keys. -/
theorem nodup_keys_dictInsert {κ α : Type} [DecidableEq κ] (d : List (κ × α))
    (k : κ) (v : α) (h : (d.map Prod.fst).Nodup) :
    ((dictInsert d k v).map Prod.fst).Nodup := by
  rw [keys_dictInsert]
  by_cases hk : k ∈ d.map Prod.fst
  · rw [if_pos hk]; exact h
  · rw [if_neg hk]
    rw [List.nodup_append]
    refine ⟨h, List.nodup_singleton k, ?_⟩
    intro a ha hb
    simp only [List.mem_singleton] at hb
    exact hk (hb ▸ ha)

/-- Overwriting a key's value does not change the pairs with other keys. -/
theorem filter_ne_map_overwrite {κ α : Type} [DecidableEq κ] (k : κ) (v : α)
    (d : List (κ × α)) :
    (d.map (fun p => if p.1 = k then (p.1, v) else p)).filter
        (fun p => !decide (p.1 = k)) =
      d.filter (fun p => !decide (p.1 = k)) := by
  induction d with
  | nil => rfl
  | cons p d ih =>
      by_cases hp : p.1 = k
      · simp [List.filter_cons, hp, ih]
      · simp [List.filter_cons, hp, ih]

/-- Inserting at a key does not change the pairs with other keys. -/
theorem filter_ne_dictInsert {κ α : Type} [DecidableEq κ] (d : List (κ × α))
    (k : κ) (v : α) :
    (dictInsert d k v).filter (fun p => !decide (p.1 = k)) =
      d.filter (fun p => !decide (p.1 = k)) := by
  unfold dictInsert
  by_cases h : d.any (fun p => decide (p.1 = k)) = true
  · rw [if_pos h]; exact filter_ne_map_overwrite k v d
  · rw [if_neg h, List.filter_append]
    simp [List.filter_cons]

/-- Inserting an absent key appends the pair at the end. -/
theorem dictInsert_of_not_mem {κ α : Type} [DecidableEq κ] (d : List (κ × α))
    (k : κ) (v : α) (h : k ∉ d.map Prod.fst) :
    dictInsert d k v = d ++ [(k, v)] := by
  unfold dictInsert
  rw [if_neg (fun hc => h ((any_key_iff d k).mp hc))]

/-- Key membership after an insert. -/
theorem dictGet?_dictInsert_isSome {κ α : Type} [DecidableEq κ] (d : List (κ × α))
    (k : κ) (v : α) (c : κ) :
    (dictGet? (dictInsert d k v) c).isSome = true ↔
      (c = k ∨ (dictGet? d c).isSome = true) := by
  by_cases hc : c = k
  · subst hc; simp [dictGet?_dictInsert_self]
  · rw [dictGet?_dictInsert_ne d k v c hc]; simp [hc]

/-- Key membership in a dict built from a pair list, with an arbitrary
starting dict. -/
theorem dictGet?_foldl_pairs_isSome {κ α : Type} [DecidableEq κ]
    (ps : List (κ × α)) :
    ∀ (d : List (κ × α)) (k : κ),
      (dictGet? (ps.foldl (fun d p => dictInsert d p.1 p.2) d) k).isSome = true ↔
        (k ∈ ps.map Prod.fst ∨ (dictGet? d k).isSome = true) := by
  induction ps with
  | nil => intro d k; simp
  | cons p ps ih =>
      intro d k
      rw [List.foldl_cons, ih, dictGet?_dictInsert_isSome]
      simp only [List.map_cons, List.mem_cons]
      tauto

/-- Key membership in a dict built from a pair list. -/
theorem dictGet?_dictOfPairs_isSome {κ α : Type} [DecidableEq κ]
    (ps : List (κ × α)) (k : κ) :
    (dictGet? (dictOfPairs ps) k).isSome = true ↔ k ∈ ps.map Prod.fst := by
  unfold dictOfPairs
  rw [dictGet?_foldl_pairs_isSome]
  simp [dictGet?]

/-- A dict built from a pair list has distinct keys, from any starting dict
with distinct keys. -/
theorem nodup_keys_foldl_pairs {κ α : Type} [DecidableEq κ] (ps : List (κ × α)) :
    ∀ d : List (κ × α), (d.map Prod.fst).Nodup →
      ((ps.foldl (fun d p => dictInsert d p.1 p.2) d).map Prod.fst).Nodup := by
  induction ps with
  | nil => intro d h; exact h
  | cons p ps ih =>
      intro d h
      rw [List.foldl_cons]
      exact ih _ (nodup_keys_dictInsert d p.1 p.2 h)

/-- A dict built from a pair list has distinct keys. -/
theorem nodup_keys_dictOfPairs {κ α : Type} [DecidableEq κ] (ps : List (κ × α)) :
    ((dictOfPairs ps).map Prod.fst).Nodup := by
  unfold dictOfPairs
  exact nodup_keys_foldl_pairs ps [] List.nodup_nil

/-- Looking up a dict built by inserting a function of each key. -/
theorem dictGet?_foldl_fun {κ α : Type} [DecidableEq κ] (g : κ → α) (l : List κ) :
    ∀ (d : List (κ × α)) (k : κ),
      dictGet? (l.foldl (fun d c => dictInsert d c (g c)) d) k =
        if k ∈ l then some (g k) else dictGet? d k := by
  induction l with
  | nil => intro d k; simp
  | cons c l ih =>
      intro d k
      rw [List.foldl_cons, ih]
      by_cases hk : k ∈ l
      · simp [hk, List.mem_cons]
      · by_cases hck : k = c
        · subst hck; simp [hk, dictGet?_dictInsert_self]
        · simp [hk, hck, dictGet?_dictInsert_ne d c (g c) k hck]

/-- The comprehension dict maps every requested column to its placeholder
value and holds nothing else. -/
theorem dictGet?_mkRow (cols : List PyVal) (c : PyVal) :
    dictGet? (mkRow cols) c = if c ∈ cols then some (sampleValue c) else none := by
  unfold mkRow dictOfPairs
  rw [List.foldl_map]
  rw [dictGet?_foldl_fun sampleValue cols]
  simp [dictGet?]

/-- The columns of a comprehension row are the requested columns. -/
theorem mem_keys_mkRow (cols : List PyVal) (c : PyVal) :
    c ∈ (mkRow cols).map Prod.fst ↔ c ∈ cols := by
  rw [← dictGet?_isSome_iff, dictGet?_mkRow]
  by_cases h : c ∈ cols <;> simp [h]

/-- A comprehension row has no duplicate columns. -/
theorem nodup_keys_mkRow (cols : List PyVal) :
    ((mkRow cols).map Prod.fst).Nodup :=
  nodup_keys_dictOfPairs _

/-- The fields of a zipped CSV row are exactly the header fields. -/
theorem keys_zipFields (fs : List String) :
    ∀ vs : List String, (zipFields fs vs).map Prod.fst = fs := by
  induction fs with
  | nil => intro vs; cases vs <;> rfl
  | cons f fs ih =>
      intro vs
      cases vs with
      | nil => simpa [zipFields] using ih []
      | cons v vs => simpa [zipFields] using ih vs

/-- A parsed CSV row has a value under exactly the header field names. -/
theorem dictGet?_dictReaderRow_isSome (fns : List String) (vals : List String)
    (f : String) :
    (dictGet? (dictReaderRow fns vals) f).isSome = true ↔ f ∈ fns := by
  unfold dictReaderRow
  rw [dictGet?_dictOfPairs_isSome, keys_zipFields]

/-- Stripping the timestamp undoes a `processed_at` write. -/
theorem stripTs_dictInsert (r : Row) (v : String) :
    stripTs (dictInsert r (some "processed_at") v) = stripTs r :=
  filter_ne_dictInsert r (some "processed_at") v

/-- Indexing into the transform loop: the i-th row gets the i-th timestamp. -/
theorem transform_go_getElem? (now : Nat → String) (data : List Row) :
    ∀ (n i : Nat),
      (transform_go now n data)[i]? =
        data[i]?.map (fun r => dictInsert r (some "processed_at") (now (n + i))) := by
  induction data with
  | nil => intro n i; simp [transform_go]
  | cons r data ih =>
      intro n i
      cases i with
      | zero => simp [transform_go]
      | succ i =>
          have harith : n + 1 + i = n + (i + 1) := by omega
          simp only [transform_go, List.getElem?_cons_succ, ih (n + 1) i, harith]

/-- Indexing into `transform_data`. -/
theorem transform_data_getElem? (now : Nat → String) (data : List Row) (i : Nat) :
    (transform_data now data)[i]? =
      data[i]?.map (fun r => dictInsert r (some "processed_at") (now i)) := by
  have h := transform_go_getElem? now data 0 i
  simpa [transform_data] using h

/-- The transform loop keeps the row count. -/
theorem length_transform_go (now : Nat → String) (data : List Row) :
    ∀ n : Nat, (transform_go now n data).length = data.length := by
  induction data with
  | nil => intro n; rfl
  | cons r data ih => intro n; simp [transform_go, ih (n + 1)]

/-- The timestamp-free fields are untouched by the transform loop. -/
theorem map_stripTs_transform_go (now : Nat → String) (data : List Row) :
    ∀ n : Nat, (transform_go now n data).map stripTs = data.map stripTs := by
  induction data with
  | nil => intro n; rfl
  | cons r data ih =>
      intro n
      simp [transform_go, ih (n + 1), stripTs_dictInsert]

/-- Every transformed row is some input row with a `processed_at` write. -/
theorem of_mem_transform_go (now : Nat → String) (data : List Row) :
    ∀ (n : Nat) (r' : Row), r' ∈ transform_go now n data →
      ∃ r, r ∈ data ∧ ∃ v, r' = dictInsert r (some "processed_at") v := by
  induction data with
  | nil => intro n r' h; cases h
  | cons r data ih =>
      intro n r' h
      rcases List.mem_cons.mp h with h | h
      · exact ⟨r, List.mem_cons_self r data, now n, h⟩
      · obtain ⟨r0, hr0, v, hv⟩ := ih (n + 1) r' h
        exact ⟨r0, List.mem_cons_of_mem r hr0, v, hv⟩

/-- `row[k]` succeeds exactly when the dict holds the key. -/
theorem pyGet_ok_iff (row : CsvRow) (f : String) (v : PyVal) :
    pyGet row f = Except.ok v ↔ dictGet? row f = some v := by
  unfold pyGet
  cases h : dictGet? row f <;> simp

/-- Appending a row to its own group. -/
theorem groupOf_metaAppend_self (m : Metadata) (k : MetaKey) (row : CsvRow) :
    groupOf (metaAppend m k row) k = groupOf m k ++ [row] := by
  unfold groupOf metaAppend
  rw [dictGet?_dictInsert_self]
  rfl

/-- Appending a row to one group leaves the other groups unchanged. -/
theorem groupOf_metaAppend_ne (m : Metadata) (k : MetaKey) (row : CsvRow)
    (k' : MetaKey) (h : k' ≠ k) :
    groupOf (metaAppend m k row) k' = groupOf m k' := by
  unfold groupOf metaAppend
  rw [dictGet?_dictInsert_ne m k _ k' h]

/-- Unfolding `keyEntries` over the first file row. -/
theorem keyEntries_cons (fns : List String) (vals : List String)
    (rest : List (List String)) (k : MetaKey) :
    keyEntries fns (vals :: rest) k =
      (if rowKey (dictReaderRow fns vals) = some k
        then [dictReaderRow fns vals] else []) ++ keyEntries fns rest k := by
  unfold keyEntries
  rw [List.map_cons, List.filter_cons]
  by_cases h : rowKey (dictReaderRow fns vals) = some k <;> simp [h]

/-- The group of every key after the metadata loop is its group before,
extended by the file entries with that key, in file order. -/
theorem read_metadata_go_groupOf (fns : List String) (rows : List (List String)) :
    ∀ (m m' : Metadata), read_metadata_go fns m rows = Except.ok m' →
      ∀ k : MetaKey, groupOf m' k = groupOf m k ++ keyEntries fns rows k := by
  induction rows with
  | nil =>
      intro m m' h k
      simp only [read_metadata_go] at h
      cases h
      simp [keyEntries]
  | cons vals rest ih =>
      intro m m' h k
      simp only [read_metadata_go] at h
      cases hst : pyGet (dictReaderRow fns vals) "source_table" with
      | error e => rw [hst] at h; exact absurd h (by simp)
      | ok st =>
        cases htt : pyGet (dictReaderRow fns vals) "target_table" with
        | error e => rw [hst, htt] at h; exact absurd h (by simp)
        | ok tt =>
            rw [hst, htt] at h
            have hg := ih (metaAppend m (st, tt) (dictReaderRow fns vals)) m' h k
            have hrk : rowKey (dictReaderRow fns vals) = some (st, tt) := by
              unfold rowKey
              rw [(pyGet_ok_iff _ _ _).mp hst, (pyGet_ok_iff _ _ _).mp htt]
            rw [hg, keyEntries_cons, hrk]
            by_cases hk : k = (st, tt)
            · subst hk
              rw [groupOf_metaAppend_self]
              simp [List.append_assoc]
            · rw [groupOf_metaAppend_ne m (st, tt) _ k hk]
              have : ¬(some ((st, tt) : MetaKey) = some k) := by
                intro he; exact hk (by injection he with he2; exact he2.symm)
              rw [if_neg this]
              simp

/-- The metadata loop keeps the group keys distinct. -/
theorem read_metadata_go_nodup (fns : List String) (rows : List (List String)) :
    ∀ (m m' : Metadata), read_metadata_go fns m rows = Except.ok m' →
      (m.map Prod.fst).Nodup → (m'.map Prod.fst).Nodup := by
  induction rows with
  | nil =>
      intro m m' h hnd
      simp only [read_metadata_go] at h
      cases h
      exact hnd
  | cons vals rest ih =>
      intro m m' h hnd
      simp only [read_metadata_go] at h
      cases hst : pyGet (dictReaderRow fns vals) "source_table" with
      | error e => rw [hst] at h; exact absurd h (by simp)
      | ok st =>
        cases htt : pyGet (dictReaderRow fns vals) "target_table" with
        | error e => rw [hst, htt] at h; exact absurd h (by simp)
        | ok tt =>
            rw [hst, htt] at h
            exact ih _ m' h (nodup_keys_dictInsert m (st, tt) _ hnd)

/-- In a dict with distinct keys, membership determines the lookup. -/
theorem dictGet?_of_mem_of_nodup {κ α : Type} [DecidableEq κ] (d : List (κ × α)) :
    ∀ (k : κ) (v : α), (d.map Prod.fst).Nodup → (k, v) ∈ d →
      dictGet? d k = some v := by
  induction d with
  | nil => intro k v _ h; cases h
  | cons p d ih =>
      intro k v hnd hmem
      rw [List.map_cons, List.nodup_cons] at hnd
      rcases List.mem_cons.mp hmem with h | h
      · rw [← h]
        rw [dictGet?_eq, List.find?_cons_of_pos]
        · rfl
        · simp
      · have hk : ¬(p.1 = k) := by
          intro he
          apply hnd.1
          rw [he]
          exact List.mem_map.mpr ⟨(k, v), h, rfl⟩
        rw [dictGet?_eq, List.find?_cons_of_neg, ← dictGet?_eq]
        · exact ih k v hnd.2 h
        · simp [hk]

/-- When every entry has the `column_name` field, the comprehension in
`main` yields exactly the ordered `column_name` values. -/
theorem derive_columns_eq_ok (entries : List CsvRow)
    (h : ∀ r ∈ entries, (dictGet? r "column_name").isSome = true) :
    derive_columns entries = Except.ok (columnNamesOf entries) := by
  induction entries with
  | nil => rfl
  | cons r rest ih =>
      have hr := h r (List.mem_cons_self r rest)
      obtain ⟨v, hv⟩ := Option.isSome_iff_exists.mp hr
      have hrest := ih (fun x hx => h x (List.mem_cons_of_mem r hx))
      simp only [derive_columns]
      rw [(pyGet_ok_iff r "column_name" v).mpr hv, hrest]
      simp [columnNamesOf, hv]

/-- Every grouped entry of a file whose header has `column_name` carries
that field. -/
theorem keyEntries_column_isSome (fns : List String) (rows : List (List String))
    (k : MetaKey) (hf : "column_name" ∈ fns) :
    ∀ r ∈ keyEntries fns rows k, (dictGet? r "column_name").isSome = true := by
  intro r hr
  unfold keyEntries at hr
  have hr2 := (List.mem_filter.mp hr).1
  obtain ⟨vals, _, heq⟩ := List.mem_map.mp hr2
  rw [← heq, dictGet?_dictReaderRow_isSome]
  exact hf

/-- C3: for every metadata input, each (source_table, target_table) key's
group in the loaded metadata is exactly its entries in file order, and
the column list the orchestrator derives for it is the ordered sequence of
`column_name` values of those entries, duplicates preserved as separate
entries (the map keeps one value per entry). -/
theorem read_metadata_derives_column_lists
    (fns : List String) (rows : List (List String)) (m : Metadata)
    (k : MetaKey) (infos : List CsvRow)
    (hok : read_metadata fns rows = Except.ok m)
    (hmem : (k, infos) ∈ m)
    (hf : "column_name" ∈ fns) :
    infos = keyEntries fns rows k ∧
    derive_columns infos = Except.ok (columnNamesOf (keyEntries fns rows k)) := by
  have hnd : (m.map Prod.fst).Nodup :=
    read_metadata_go_nodup fns rows [] m hok List.nodup_nil
  have hget : dictGet? m k = some infos :=
    dictGet?_of_mem_of_nodup m k infos hnd hmem
  have hgrp := read_metadata_go_groupOf fns rows [] m hok k
  have hgm : groupOf m k = keyEntries fns rows k := by
    rw [hgrp]
    simp [groupOf, dictGet?]
  have hinfos : infos = keyEntries fns rows k := by
    rw [← hgm]
    unfold groupOf
    rw [hget]
    rfl
  refine ⟨hinfos, ?_⟩
  rw [hinfos]
  exact derive_columns_eq_ok _ (keyEntries_column_isSome fns rows k hf)

/-- Witness for C3 at a concrete metadata file with a duplicated column. -/
theorem read_metadata_derives_column_lists_witness :
    (read_metadata stdFns [["orders", "orders_dw", "id"], ["orders", "orders_dw", "id"]]
        = Except.ok [((some "orders", some "orders_dw"),
            [[("source_table", some "orders"), ("target_table", some "orders_dw"),
              ("column_name", some "id")],
             [("source_table", some "orders"), ("target_table", some "orders_dw"),
              ("column_name", some "id")]])]) ∧
    ([[("source_table", some "orders"), ("target_table", some "orders_dw"),
        ("column_name", some "id")],
      [("source_table", some "orders"), ("target_table", some "orders_dw"),
        ("column_name", some "id")]]
      = keyEntries stdFns [["orders", "orders_dw", "id"], ["orders", "orders_dw", "id"]]
          (some "orders", some "orders_dw")) ∧
    (derive_columns
        [[("source_table", some "orders"), ("target_table", some "orders_dw"),
          ("column_name", some "id")],
         [("source_table", some "orders"), ("target_table", some "orders_dw"),
          ("column_name", some "id")]]
      = Except.ok (columnNamesOf (keyEntries stdFns
          [["orders", "orders_dw", "id"], ["orders", "orders_dw", "id"]]
          (some "orders", some "orders_dw")))) := by
  have h := read_metadata_derives_column_lists stdFns
    [["orders", "orders_dw", "id"], ["orders", "orders_dw", "id"]]
    [((some "orders", some "orders_dw"),
        [[("source_table", some "orders"), ("target_table", some "orders_dw"),
          ("column_name", some "id")],
         [("source_table", some "orders"), ("target_table", some "orders_dw"),
          ("column_name", some "id")]])]
    (some "orders", some "orders_dw")
    [[("source_table", some "orders"), ("target_table", some "orders_dw"),
      ("column_name", some "id")],
     [("source_table", some "orders"), ("target_table", some "orders_dw"),
      ("column_name", some "id")]]
    (by rfl) (by simp) (by simp [stdFns])
  exact ⟨by rfl, h.1, h.2⟩

/-- C2: for every table name and column list, the stub extractor returns
exactly 3 rows; each row holds a value under exactly the requested columns,
each mapped to the placeholder value derived from the column name. -/
theorem extract_data_rows_exact (t : PyVal) (cols : List PyVal) :
    (extract_data t cols).length = 3 ∧
    ∀ r ∈ extract_data t cols, ∀ c : PyVal,
      ((dictGet? r c).isSome = true ↔ c ∈ cols) ∧
      (c ∈ cols → dictGet? r c = some (sampleValue c)) := by
  constructor
  · simp [extract_data]
  · intro r hr c
    have hrm : r = mkRow cols := List.eq_of_mem_replicate hr
    subst hrm
    constructor
    · rw [dictGet?_mkRow]
      by_cases h : c ∈ cols <;> simp [h]
    · intro hc
      rw [dictGet?_mkRow, if_pos hc]

/-- Witness for C2: a concrete one-column extract. -/
theorem extract_data_rows_exact_witness :
    (extract_data (some "orders") [some "id"]).length = 3 ∧
    dictGet? (mkRow [some "id"]) (some "id") = some (sampleValue (some "id")) :=
  ⟨(extract_data_rows_exact (some "orders") [some "id"]).1,
   ((extract_data_rows_exact (some "orders") [some "id"]).2 (mkRow [some "id"])
      (by simp [extract_data, List.mem_replicate]) (some "id")).2 (by simp)⟩

/-- C1: for a key of the loaded metadata with derived column list `cols`,
every extracted row holds a value under exactly the columns of `cols`, and
every transformed row under exactly those columns plus `processed_at`. -/
theorem pipeline_rows_have_exact_columns
    (fns : List String) (rows : List (List String)) (m : Metadata)
    (now : Nat → String) (k : MetaKey) (infos : List CsvRow) (cols : List PyVal)
    (hok : read_metadata fns rows = Except.ok m)
    (hmem : (k, infos) ∈ m)
    (hcols : derive_columns infos = Except.ok cols) :
    (∀ r ∈ extract_data k.1 cols, ∀ c : PyVal,
        (dictGet? r c).isSome = true ↔ c ∈ cols) ∧
    (∀ r ∈ transform_data now (extract_data k.1 cols), ∀ c : PyVal,
        (dictGet? r c).isSome = true ↔ (c ∈ cols ∨ c = some "processed_at")) := by
  constructor
  · intro r hr c
    have hrm : r = mkRow cols := List.eq_of_mem_replicate hr
    subst hrm
    rw [dictGet?_mkRow]
    by_cases h : c ∈ cols <;> simp [h]
  · intro r' hr' c
    simp only [transform_data] at hr'
    obtain ⟨r, hr, v, heq⟩ := of_mem_transform_go now (extract_data k.1 cols) 0 r' hr'
    have hrm : r = mkRow cols := List.eq_of_mem_replicate hr
    subst hrm
    subst heq
    rw [dictGet?_dictInsert_isSome]
    by_cases h : c ∈ cols
    · simp [h, dictGet?_mkRow]
    · by_cases hpa : c = some "processed_at" <;> simp [h, hpa, dictGet?_mkRow]

/-- Witness for C1: the transformed rows of a one-column mapping hold a
value under `processed_at`. -/
theorem pipeline_rows_have_exact_columns_witness :
    (dictGet? (dictInsert (mkRow [some "id"]) (some "processed_at") "T")
        (some "processed_at")).isSome = true :=
  ((pipeline_rows_have_exact_columns stdFns [["orders", "orders_dw", "id"]]
      [((some "orders", some "orders_dw"),
        [[("source_table", some "orders"), ("target_table", some "orders_dw"),
          ("column_name", some "id")]])]
      (fun _ => "T") (some "orders", some "orders_dw")
      [[("source_table", some "orders"), ("target_table", some "orders_dw"),
        ("column_name", some "id")]]
      [some "id"] (by rfl) (by simp) (by rfl)).2
    (dictInsert (mkRow [some "id"]) (some "processed_at") "T")
    (by decide) (some "processed_at")).mpr (Or.inr rfl)

/-- C4: transforming twice leaves the timestamp-free fields of a single
transform unchanged; the second `processed_at` write wins, and rows built
from dicts keep distinct keys. -/
theorem transform_data_idempotent
    (now1 now2 : Nat → String) (data : List Row)
    (hrows : ∀ r ∈ data, (r.map Prod.fst).Nodup) :
    ((transform_data now2 (transform_data now1 data)).map stripTs
        = (transform_data now1 data).map stripTs) ∧
    (∀ (i : Nat) (r : Row),
        (transform_data now2 (transform_data now1 data))[i]? = some r →
        dictGet? r (some "processed_at") = some (now2 i) ∧
        (r.map Prod.fst).Nodup) := by
  constructor
  · simp only [transform_data]
    exact map_stripTs_transform_go now2 (transform_go now1 0 data) 0
  · intro i r h
    rw [transform_data_getElem?] at h
    rw [transform_data_getElem?] at h
    cases hd : data[i]? with
    | none => rw [hd] at h; exact absurd h (by simp)
    | some r0 =>
        rw [hd] at h
        have hr : r = dictInsert (dictInsert r0 (some "processed_at") (now1 i))
            (some "processed_at") (now2 i) := by
          simpa using h.symm
        subst hr
        constructor
        · exact dictGet?_dictInsert_self _ _ _
        · exact nodup_keys_dictInsert _ _ _
            (nodup_keys_dictInsert _ _ _ (hrows r0 (List.getElem?_mem hd)))

/-- Witness for C4 at a concrete one-row batch. -/
theorem transform_data_idempotent_witness :
    (∀ r ∈ [[((some "id" : PyVal), "v")]], (r.map Prod.fst).Nodup) ∧
    ((transform_data (fun _ => "B") (transform_data (fun _ => "A")
        [[(some "id", "v")]])).map stripTs
      = (transform_data (fun _ => "A") [[(some "id", "v")]]).map stripTs) ∧
    dictGet? [((some "id" : PyVal), "v"), (some "processed_at", "B")]
      (some "processed_at") = some "B" :=
  ⟨by decide,
   (transform_data_idempotent (fun _ => "A") (fun _ => "B")
      [[(some "id", "v")]] (by decide)).1,
   ((transform_data_idempotent (fun _ => "A") (fun _ => "B")
      [[(some "id", "v")]] (by decide)).2 0
      [(some "id", "v"), (some "processed_at", "B")] (by decide)).1⟩

/-- Writing an absent key appends the pair. -/
theorem dictInsert_of_get_none {κ α : Type} [DecidableEq κ] (d : List (κ × α))
    (k : κ) (v : α) (h : dictGet? d k = none) :
    dictInsert d k v = d ++ [(k, v)] := by
  apply dictInsert_of_not_mem
  intro hm
  have := (dictGet?_isSome_iff d k).mpr hm
  rw [h] at this
  exact absurd this (by simp)

/-- C5 counterexample: on a row that already holds `processed_at`, the
transform overwrites the field in place, so the row keeps its single field
rather than gaining one. -/
theorem transform_data_one_field_cex :
    (transform_data (fun _ => "T") [[(some "processed_at", "v")]]
      = [[(some "processed_at", "T")]]) ∧
    ¬((transform_data (fun _ => "T") [[(some "processed_at", "v")]]).map
        (fun r => r.length) = [2]) := by decide

/-- C5 amended: on every row sequence in which no row holds `processed_at`
yet, the transform appends exactly the `processed_at` timestamp field to
each row and leaves every other field unchanged. -/
theorem transform_data_appends_timestamp
    (now : Nat → String) (data : List Row)
    (h : ∀ r ∈ data, dictGet? r (some "processed_at") = none) :
    (transform_data now data).length = data.length ∧
    ∀ (i : Nat) (r : Row), data[i]? = some r →
      (transform_data now data)[i]? = some (r ++ [(some "processed_at", now i)]) := by
  constructor
  · simp only [transform_data]
    exact length_transform_go now data 0
  · intro i r hd
    rw [transform_data_getElem?, hd]
    rw [Option.map_some']
    rw [dictInsert_of_get_none r (some "processed_at") (now i)
      (h r (List.getElem?_mem hd))]

/-- Witness for the amended C5 on a concrete one-row batch. -/
theorem transform_data_appends_timestamp_witness :
    (∀ r ∈ [[((some "id" : PyVal), "v")]],
        dictGet? r (some "processed_at") = none) ∧
    (transform_data (fun _ => "T") [[(some "id", "v")]])[0]?
      = some ([(some "id", "v")] ++ [(some "processed_at", "T")]) :=
  ⟨by decide,
   (transform_data_appends_timestamp (fun _ => "T") [[(some "id", "v")]]
      (by decide)).2 0 [(some "id", "v")] (by decide)⟩

/-- A successful run of the `main` loop emits extract-transform-load
blocks, in that order, one per metadata key. -/
theorem main_loop_isETL (now : Nat → Nat → String) (ms : Metadata) :
    ∀ (n : Nat) (evs : List Event),
      main_loop now n ms = Except.ok evs → isETLTrace evs = true := by
  induction ms with
  | nil =>
      intro n evs h
      simp only [main_loop] at h
      cases h
      rfl
  | cons p rest ih =>
      obtain ⟨key, ci⟩ := p
      intro n evs h
      simp only [main_loop] at h
      cases hrm : run_mapping (now n) key.1 key.2 ci with
      | error e => rw [hrm] at h; exact absurd h (by simp)
      | ok evs1 =>
          rw [hrm] at h
          cases hml : main_loop now (n + 1) rest with
          | error e => rw [hml] at h; exact absurd h (by simp)
          | ok more =>
              rw [hml] at h
              have hevs : evs = evs1 ++ more := by
                cases h
                rfl
              subst hevs
              unfold run_mapping at hrm
              cases hdc : derive_columns ci with
              | error e => rw [hdc] at hrm; exact absurd hrm (by simp)
              | ok columns =>
                  rw [hdc] at hrm
                  have hevs1 : evs1 = [Event.extract key.1 columns, Event.transform,
                      load_data key.2 (transform_data (now n)
                        (extract_data key.1 columns))] := by
                    cases hrm
                    rfl
                  subst hevs1
                  simp only [List.cons_append, List.nil_append, load_data, isETLTrace]
                  exact ih (n + 1) more hml

/-- C6: every successful run is a sequence of extract, transform, load
events in that order per key (metadata is read once, at the start), and on
the round-trip metadata (orders, orders_dw, id), (orders, orders_dw,
amount) the load receives exactly 3 rows with keys id, amount,
processed_at. -/
theorem etl_main_order_and_roundtrip :
    (∀ (now : Nat → Nat → String) (fns : List String) (rows : List (List String))
        (evs : List Event), etl_main now fns rows = Except.ok evs →
        isETLTrace evs = true) ∧
    (etl_main (fun _ _ => "TS") stdFns
        [["orders", "orders_dw", "id"], ["orders", "orders_dw", "amount"]]
      = Except.ok
          [Event.extract (some "orders") [some "id", some "amount"],
           Event.transform,
           Event.load (some "orders_dw")
             [[(some "id", "sample_id_value"), (some "amount", "sample_amount_value"),
               (some "processed_at", "TS")],
              [(some "id", "sample_id_value"), (some "amount", "sample_amount_value"),
               (some "processed_at", "TS")],
              [(some "id", "sample_id_value"), (some "amount", "sample_amount_value"),
               (some "processed_at", "TS")]]]) := by
  constructor
  · intro now fns rows evs h
    unfold etl_main at h
    cases hm : read_metadata fns rows with
    | error e => rw [hm] at h; exact absurd h (by simp)
    | ok metadata =>
        rw [hm] at h
        exact main_loop_isETL now metadata 0 evs h
  · rfl

/-- Witness for C6: the round-trip trace is a well-formed pipeline trace. -/
theorem etl_main_order_and_roundtrip_witness :
    isETLTrace
      [Event.extract (some "orders") [some "id", some "amount"],
       Event.transform,
       Event.load (some "orders_dw")
         [[(some "id", "sample_id_value"), (some "amount", "sample_amount_value"),
           (some "processed_at", "TS")],
          [(some "id", "sample_id_value"), (some "amount", "sample_amount_value"),
           (some "processed_at", "TS")],
          [(some "id", "sample_id_value"), (some "amount", "sample_amount_value"),
           (some "processed_at", "TS")]]] = true :=
  etl_main_order_and_roundtrip.1 (fun _ _ => "TS") stdFns
    [["orders", "orders_dw", "id"], ["orders", "orders_dw", "amount"]] _
    etl_main_order_and_roundtrip.2

/-- C8: on a metadata file with a header row only, the orchestrator
performs no extract, transform, or load call and exits cleanly. -/
theorem etl_main_empty_file (now : Nat → Nat → String) (fns : List String) :
    etl_main now fns [] = Except.ok [] := rfl

/-- With the standard header the metadata loop never raises: both key
fields are always present in a parsed row. -/
theorem read_metadata_go_stdFns_ok (rows : List (List String)) :
    ∀ m : Metadata, ∃ m' : Metadata,
      read_metadata_go stdFns m rows = Except.ok m' := by
  induction rows with
  | nil => intro m; exact ⟨m, rfl⟩
  | cons vals rest ih =>
      intro m
      have hst : (dictGet? (dictReaderRow stdFns vals) "source_table").isSome = true := by
        rw [dictGet?_dictReaderRow_isSome]
        simp [stdFns]
      have htt : (dictGet? (dictReaderRow stdFns vals) "target_table").isSome = true := by
        rw [dictGet?_dictReaderRow_isSome]
        simp [stdFns]
      obtain ⟨st, hst⟩ := Option.isSome_iff_exists.mp hst
      obtain ⟨tt, htt⟩ := Option.isSome_iff_exists.mp htt
      obtain ⟨m', hm'⟩ := ih (metaAppend m (st, tt) (dictReaderRow stdFns vals))
      refine ⟨m', ?_⟩
      simp only [read_metadata_go,
        (pyGet_ok_iff (dictReaderRow stdFns vals) "source_table" st).mpr hst,
        (pyGet_ok_iff (dictReaderRow stdFns vals) "target_table" tt).mpr htt]
      exact hm'

/-- C7 counterexample: a data row missing its `column_name` value raises no
error; the loader returns normally with the missing field stored as None. -/
theorem read_metadata_missing_column_cex :
    read_metadata stdFns [["orders", "orders_dw"]]
      = Except.ok [((some "orders", some "orders_dw"),
          [[("source_table", some "orders"), ("target_table", some "orders_dw"),
            ("column_name", none)]])] := rfl

/-- C7 amended: with the standard header the loader never raises a
malformed-input error; a row missing `column_name` is silently accepted
with that field stored as None. -/
theorem read_metadata_accepts_missing_column :
    (∀ rows : List (List String), ∃ m : Metadata,
        read_metadata stdFns rows = Except.ok m) ∧
    (read_metadata stdFns [["orders", "orders_dw"]]
      = Except.ok [((some "orders", some "orders_dw"),
          [[("source_table", some "orders"), ("target_table", some "orders_dw"),
            ("column_name", none)]])]) ∧
    (dictGet?
        [("source_table", some "orders"), ("target_table", some "orders_dw"),
         ("column_name", (none : PyVal))] "column_name" = some none) := by
  refine ⟨fun rows => read_metadata_go_stdFns_ok rows [], rfl, rfl⟩

/-- C9 counterexample: a duplicated column name survives into the derived
column list, yet the produced rows hold a single entry for it, not two. -/
theorem duplicate_columns_downstream_cex :
    (derive_columns
        [[("source_table", some "orders"), ("target_table", some "orders_dw"),
          ("column_name", some "id")],
         [("source_table", some "orders"), ("target_table", some "orders_dw"),
          ("column_name", some "id")]] = Except.ok [some "id", some "id"]) ∧
    ((extract_data (some "orders") [some "id", some "id"]).map
        (fun r => r.length) = [1, 1, 1]) ∧
    ¬((extract_data (some "orders") [some "id", some "id"]).map
        (fun r => r.length) = [2, 2, 2]) :=
  ⟨rfl, by decide, by decide⟩

/-- C9 amended: the loader and the derived column list preserve duplicate
column names as separate entries, but the dict comprehension of the
extractor de-duplicates them: every produced row has distinct columns,
one per distinct requested name. -/
theorem duplicates_preserved_not_downstream (t : PyVal) (cols : List PyVal) :
    (read_metadata stdFns [["orders", "orders_dw", "id"], ["orders", "orders_dw", "id"]]
      = Except.ok [((some "orders", some "orders_dw"),
          [[("source_table", some "orders"), ("target_table", some "orders_dw"),
            ("column_name", some "id")],
           [("source_table", some "orders"), ("target_table", some "orders_dw"),
            ("column_name", some "id")]])]) ∧
    (∀ r ∈ extract_data t cols,
        (r.map Prod.fst).Nodup ∧ ∀ c : PyVal, c ∈ r.map Prod.fst ↔ c ∈ cols) := by
  constructor
  · rfl
  · intro r hr
    have hrm : r = mkRow cols := List.eq_of_mem_replicate hr
    subst hrm
    exact ⟨nodup_keys_mkRow cols, fun c => mem_keys_mkRow cols c⟩

/-- Witness for the amended C9: the row extracted for a duplicated column
list has distinct columns. -/
theorem duplicates_preserved_not_downstream_witness :
    ((mkRow [some "id", some "id"]).map Prod.fst).Nodup :=
  ((duplicates_preserved_not_downstream (some "orders") [some "id", some "id"]).2
    (mkRow [some "id", some "id"]) (by simp [extract_data, List.mem_replicate])).1

/-- In a dict with distinct keys, a stored key occupies exactly one pair. -/
theorem count_keys_eq_one {κ α : Type} [DecidableEq κ] (d : List (κ × α)) :
    ∀ k : κ, (d.map Prod.fst).Nodup → k ∈ d.map Prod.fst →
      (d.filter (fun p => decide (p.1 = k))).length = 1 := by
  induction d with
  | nil => intro k _ h; cases h
  | cons p d ih =>
      intro k hnd hmem
      rw [List.map_cons, List.nodup_cons] at hnd
      rw [List.filter_cons]
      by_cases hp : p.1 = k
      · rw [if_pos (by simp [hp])]
        have hnot : k ∉ d.map Prod.fst := hp ▸ hnd.1
        have hfil : d.filter (fun p => decide (p.1 = k)) = [] := by
          rw [List.filter_eq_nil_iff]
          intro q hq hqk
          exact hnot (List.mem_map.mpr ⟨q, hq, by simpa using hqk⟩)
        simp [hfil]
      · rw [if_neg (by simp [hp])]
        apply ih k hnd.2
        rw [List.map_cons] at hmem
        rcases List.mem_cons.mp hmem with h | h
        · exact absurd h.symm hp
        · exact h

/-- C10: when `processed_at` is itself a requested column, the transform
overwrites the extractor's placeholder: each transformed row keeps exactly
the columns of the comprehension row (the distinct requested names), holds
exactly one `processed_at` pair, whose value is the timestamp, and gains no
extra field. -/
theorem transform_overwrites_placeholder
    (now : Nat → String) (t : PyVal) (cols : List PyVal)
    (h : some "processed_at" ∈ cols) :
    ∀ (i : Nat) (r : Row),
      (transform_data now (extract_data t cols))[i]? = some r →
      r.map Prod.fst = (mkRow cols).map Prod.fst ∧
      (∀ c : PyVal, c ∈ r.map Prod.fst ↔ c ∈ cols) ∧
      (r.filter (fun p => decide (p.1 = some "processed_at"))).length = 1 ∧
      dictGet? r (some "processed_at") = some (now i) ∧
      r.length = (mkRow cols).length := by
  intro i r hr
  rw [transform_data_getElem?] at hr
  cases hd : (extract_data t cols)[i]? with
  | none => rw [hd] at hr; exact absurd hr (by simp)
  | some r0 =>
      rw [hd] at hr
      have hr0 : r0 = mkRow cols := List.eq_of_mem_replicate (List.getElem?_mem hd)
      subst hr0
      have hrr : r = dictInsert (mkRow cols) (some "processed_at") (now i) := by
        simpa using hr.symm
      subst hrr
      have hpa : some "processed_at" ∈ (mkRow cols).map Prod.fst :=
        (mem_keys_mkRow cols (some "processed_at")).mpr h
      have hkeys : (dictInsert (mkRow cols) (some "processed_at") (now i)).map Prod.fst
          = (mkRow cols).map Prod.fst := by
        rw [keys_dictInsert, if_pos hpa]
      refine ⟨hkeys, ?_, ?_, ?_, ?_⟩
      · intro c
        rw [hkeys]
        exact mem_keys_mkRow cols c
      · exact count_keys_eq_one _ (some "processed_at")
          (by rw [hkeys]; exact nodup_keys_mkRow cols) (by rw [hkeys]; exact hpa)
      · exact dictGet?_dictInsert_self _ _ _
      · rw [← List.length_map (dictInsert (mkRow cols) (some "processed_at") (now i))
            Prod.fst, hkeys, List.length_map]

/-- Witness for C10 at a concrete column list naming `processed_at`. -/
theorem transform_overwrites_placeholder_witness :
    some "processed_at" ∈ [some "id", (some "processed_at" : PyVal)] ∧
    dictGet? (dictInsert (mkRow [some "id", some "processed_at"])
        (some "processed_at") "T") (some "processed_at") = some "T" :=
  ⟨by decide,
   ((transform_overwrites_placeholder (fun _ => "T") (some "orders")
      [some "id", some "processed_at"] (by decide) 0
      (dictInsert (mkRow [some "id", some "processed_at"])
        (some "processed_at") "T") (by decide)).2.2.2.1)⟩
